import Mathlib

/-!
Verification of the state-estimation notebooks: the Kalman filter
(`kalman-filter.ipynb`) and the particle filter notebook.

The Kalman cells are pure linear algebra; they are embedded as functions on
rational matrices (`Matrix (Fin _) (Fin _) ℚ`), with `np.linalg.inv` embedded
as the adjugate-based inverse `matInv`, which agrees with the true inverse
exactly on matrices of nonzero determinant.  The particle-filter cells are
embedded as value-level transforms on a `Particle` structure and on lists of
particles; the random draws of the notebook (motion noise, resampling indices,
fresh uniform samples) enter the embedding as explicit arguments.
-/

open Matrix

namespace KalmanFilter

/-- Embedding of `np.linalg.inv` on square rational matrices: the classical
adjugate formula `A⁻¹ = det(A)⁻¹ • adj(A)`.  On matrices with nonzero
determinant this is the unique two-sided inverse (the case where
`np.linalg.inv` returns); on singular matrices it degenerates (rational
`det⁻¹ = 0`), there being no error channel in this total function. -/
def matInv {k : ℕ} (A : Matrix (Fin k) (Fin k) ℚ) : Matrix (Fin k) (Fin k) ℚ :=
  A.det⁻¹ • A.adjugate

/-- Embedding of `predict(A, B, Q, mu_t, u_t, Sigma_t)` from the Kalman
notebook: `predicted_mu = A @ mu_t + B @ u_t` and
`predicted_Sigma = A @ Sigma_t @ A.T + Q`, returned as a pair. -/
def predict {n m : ℕ} (A : Matrix (Fin n) (Fin n) ℚ) (B : Matrix (Fin n) (Fin m) ℚ)
    (Q : Matrix (Fin n) (Fin n) ℚ) (mu_t : Fin n → ℚ) (u_t : Fin m → ℚ)
    (Sigma_t : Matrix (Fin n) (Fin n) ℚ) : (Fin n → ℚ) × Matrix (Fin n) (Fin n) ℚ :=
  (A.mulVec mu_t + B.mulVec u_t, A * Sigma_t * Aᵀ + Q)

/-- The innovation covariance `H @ predicted_Sigma @ H.T + R` computed inside
`update` in the Kalman notebook. -/
def residualCovariance {n k : ℕ} (H : Matrix (Fin k) (Fin n) ℚ)
    (R : Matrix (Fin k) (Fin k) ℚ) (predicted_Sigma : Matrix (Fin n) (Fin n) ℚ) :
    Matrix (Fin k) (Fin k) ℚ :=
  H * predicted_Sigma * Hᵀ + R

/-- Embedding of `update(H, R, z, predicted_mu, predicted_Sigma)` from the
Kalman notebook:
`residual_mean = z - H @ predicted_mu`,
`residual_covariance = H @ predicted_Sigma @ H.T + R`,
`kalman_gain = predicted_Sigma @ H.T @ np.linalg.inv(residual_covariance)`,
`updated_mu = predicted_mu + kalman_gain @ residual_mean`,
`updated_Sigma = predicted_Sigma - kalman_gain @ H @ predicted_Sigma`. -/
def update {n k : ℕ} (H : Matrix (Fin k) (Fin n) ℚ) (R : Matrix (Fin k) (Fin k) ℚ)
    (z : Fin k → ℚ) (predicted_mu : Fin n → ℚ)
    (predicted_Sigma : Matrix (Fin n) (Fin n) ℚ) :
    (Fin n → ℚ) × Matrix (Fin n) (Fin n) ℚ :=
  let residual_mean := z - H.mulVec predicted_mu
  let residual_covariance := residualCovariance H R predicted_Sigma
  let kalman_gain := predicted_Sigma * Hᵀ * matInv residual_covariance
  let updated_mu := predicted_mu + kalman_gain.mulVec residual_mean
  let updated_Sigma := predicted_Sigma - kalman_gain * H * predicted_Sigma
  (updated_mu, updated_Sigma)

theorem mul_matInv_of_det_ne_zero {k : ℕ} (A : Matrix (Fin k) (Fin k) ℚ)
    (h : A.det ≠ 0) : A * matInv A = 1 := by
  unfold matInv
  rw [Matrix.mul_smul, Matrix.mul_adjugate, smul_smul, inv_mul_cancel₀ h, one_smul]

theorem matInv_mul_of_det_ne_zero {k : ℕ} (A : Matrix (Fin k) (Fin k) ℚ)
    (h : A.det ≠ 0) : matInv A * A = 1 := by
  unfold matInv
  rw [Matrix.smul_mul, Matrix.adjugate_mul, smul_smul, inv_mul_cancel₀ h, one_smul]

/-- C1: for every belief `(predicted_mu, predicted_Sigma)` and measurement `z`
of the configured dimension (with the innovation covariance invertible, so
that its inverse in the gain formula is meaningful), `update` computes, in
order, `residual_mean = z - H·mu`, `residual_covariance = H·Sigma·Hᵀ + R`,
`gain = Sigma·Hᵀ·residual_covariance⁻¹` (where `matInv residual_covariance`
is its genuine two-sided inverse), `new mean = mu + gain·residual_mean`, and
`new covariance = Sigma - gain·H·Sigma`, and returns the new mean and
covariance as its value. -/
theorem C1_update_computes_standard_steps {n k : ℕ}
    (H : Matrix (Fin k) (Fin n) ℚ) (R : Matrix (Fin k) (Fin k) ℚ)
    (z : Fin k → ℚ) (predicted_mu : Fin n → ℚ)
    (predicted_Sigma : Matrix (Fin n) (Fin n) ℚ)
    (hdet : (residualCovariance H R predicted_Sigma).det ≠ 0) :
    residualCovariance H R predicted_Sigma = H * predicted_Sigma * Hᵀ + R ∧
    residualCovariance H R predicted_Sigma *
      matInv (residualCovariance H R predicted_Sigma) = 1 ∧
    matInv (residualCovariance H R predicted_Sigma) *
      residualCovariance H R predicted_Sigma = 1 ∧
    update H R z predicted_mu predicted_Sigma =
      (predicted_mu +
        (predicted_Sigma * Hᵀ * matInv (residualCovariance H R predicted_Sigma)).mulVec
          (z - H.mulVec predicted_mu),
       predicted_Sigma -
        predicted_Sigma * Hᵀ * matInv (residualCovariance H R predicted_Sigma) *
          H * predicted_Sigma) := by
  refine ⟨rfl, mul_matInv_of_det_ne_zero _ hdet, matInv_mul_of_det_ne_zero _ hdet, rfl⟩

/-- Witness for C1 at a concrete one-dimensional input: `H = R = Sigma = 1`,
`z = 1`, `mu = 0`; the innovation covariance is `2`, which is invertible. -/
theorem C1_update_computes_standard_steps_witness :
    (residualCovariance (1 : Matrix (Fin 1) (Fin 1) ℚ) 1 1).det ≠ 0 ∧
    (residualCovariance (1 : Matrix (Fin 1) (Fin 1) ℚ) 1 1 = 1 * 1 * (1 : Matrix (Fin 1) (Fin 1) ℚ)ᵀ + 1 ∧
     residualCovariance (1 : Matrix (Fin 1) (Fin 1) ℚ) 1 1 *
       matInv (residualCovariance (1 : Matrix (Fin 1) (Fin 1) ℚ) 1 1) = 1 ∧
     matInv (residualCovariance (1 : Matrix (Fin 1) (Fin 1) ℚ) 1 1) *
       residualCovariance (1 : Matrix (Fin 1) (Fin 1) ℚ) 1 1 = 1 ∧
     update (1 : Matrix (Fin 1) (Fin 1) ℚ) 1 (fun _ => 1) (fun _ => 0) 1 =
       ((fun _ => 0) +
         ((1 : Matrix (Fin 1) (Fin 1) ℚ) * (1 : Matrix (Fin 1) (Fin 1) ℚ)ᵀ *
           matInv (residualCovariance (1 : Matrix (Fin 1) (Fin 1) ℚ) 1 1)).mulVec
           ((fun _ => 1) - (1 : Matrix (Fin 1) (Fin 1) ℚ).mulVec (fun _ => 0)),
        1 - (1 : Matrix (Fin 1) (Fin 1) ℚ) * (1 : Matrix (Fin 1) (Fin 1) ℚ)ᵀ *
          matInv (residualCovariance (1 : Matrix (Fin 1) (Fin 1) ℚ) 1 1) * 1 * 1)) := by
  have hdet : (residualCovariance (1 : Matrix (Fin 1) (Fin 1) ℚ) 1 1).det ≠ 0 := by
    simp [residualCovariance, Matrix.det_fin_one]
  exact ⟨hdet, C1_update_computes_standard_steps 1 1 (fun _ => 1) (fun _ => 0) 1 hdet⟩

/-- C2: for every belief `(mu_t, Sigma_t)` and control vector `u_t` of the
configured dimension, `predict` replaces the belief with
`mean = A·mu_t + B·u_t` and `covariance = A·Sigma_t·Aᵀ + Q` (the
process-noise covariance), exactly. -/
theorem C2_predict_formula {n m : ℕ} (A : Matrix (Fin n) (Fin n) ℚ)
    (B : Matrix (Fin n) (Fin m) ℚ) (Q : Matrix (Fin n) (Fin n) ℚ)
    (mu_t : Fin n → ℚ) (u_t : Fin m → ℚ) (Sigma_t : Matrix (Fin n) (Fin n) ℚ) :
    predict A B Q mu_t u_t Sigma_t =
      (A.mulVec mu_t + B.mulVec u_t, A * Sigma_t * Aᵀ + Q) := rfl

theorem update_fst {n k : ℕ} (H : Matrix (Fin k) (Fin n) ℚ)
    (R : Matrix (Fin k) (Fin k) ℚ) (z : Fin k → ℚ) (predicted_mu : Fin n → ℚ)
    (predicted_Sigma : Matrix (Fin n) (Fin n) ℚ) :
    (update H R z predicted_mu predicted_Sigma).1 =
      predicted_mu +
        (predicted_Sigma * Hᵀ * matInv (residualCovariance H R predicted_Sigma)).mulVec
          (z - H.mulVec predicted_mu) := rfl

theorem update_snd {n k : ℕ} (H : Matrix (Fin k) (Fin n) ℚ)
    (R : Matrix (Fin k) (Fin k) ℚ) (z : Fin k → ℚ) (predicted_mu : Fin n → ℚ)
    (predicted_Sigma : Matrix (Fin n) (Fin n) ℚ) :
    (update H R z predicted_mu predicted_Sigma).2 =
      predicted_Sigma -
        predicted_Sigma * Hᵀ * matInv (residualCovariance H R predicted_Sigma) *
          H * predicted_Sigma := rfl

theorem matInv_of_det_eq_zero {k : ℕ} (A : Matrix (Fin k) (Fin k) ℚ)
    (h : A.det = 0) : matInv A = 0 := by
  unfold matInv
  rw [h, (inv_zero : (0 : ℚ)⁻¹ = 0), zero_smul]

/-- The unguarded `update` on a singular innovation covariance: the gain
degenerates and the call returns a value as if nothing happened. -/
theorem update_of_singular {n k : ℕ} (H : Matrix (Fin k) (Fin n) ℚ)
    (R : Matrix (Fin k) (Fin k) ℚ) (z : Fin k → ℚ) (predicted_mu : Fin n → ℚ)
    (predicted_Sigma : Matrix (Fin n) (Fin n) ℚ)
    (h : (residualCovariance H R predicted_Sigma).det = 0) :
    update H R z predicted_mu predicted_Sigma = (predicted_mu, predicted_Sigma) := by
  have h1 := update_fst H R z predicted_mu predicted_Sigma
  have h2 := update_snd H R z predicted_mu predicted_Sigma
  rw [matInv_of_det_eq_zero _ h] at h1 h2
  rw [Matrix.mul_zero, Matrix.zero_mulVec, add_zero] at h1
  rw [Matrix.mul_zero, Matrix.zero_mul, Matrix.zero_mul, sub_zero] at h2
  exact Prod.ext h1 h2

/-- C3: the notebook's `update` performs no singularity check: on a call whose
innovation covariance `H·Sigma·Hᵀ + R` is singular (here `H = 1`, `R = 0`,
`Sigma = 0`, so the innovation covariance is the zero matrix), it does not
signal any `SingularCovariance` condition — the straight-line computation
silently returns a belief (in floating point, `np.linalg.inv` escapes with a
generic `LinAlgError` or returns garbage on ill-conditioned input). -/
theorem C3_update_unguarded_on_singular :
    (residualCovariance (1 : Matrix (Fin 1) (Fin 1) ℚ) 0 0).det = 0 ∧
    update (1 : Matrix (Fin 1) (Fin 1) ℚ) 0 (fun _ => 1) (fun _ => 0) 0 =
      (fun _ => 0, 0) := by
  have h : (residualCovariance (1 : Matrix (Fin 1) (Fin 1) ℚ) 0 0).det = 0 := by
    simp [residualCovariance, Matrix.det_fin_one]
  exact ⟨h, update_of_singular _ _ _ _ _ h⟩

/-- Positive semidefiniteness of a rational matrix, as nonnegativity of the
associated quadratic form. -/
def PSDq {n : ℕ} (A : Matrix (Fin n) (Fin n) ℚ) : Prop :=
  ∀ x : Fin n → ℚ, 0 ≤ x ⬝ᵥ A.mulVec x

/-- Positive definiteness of a rational matrix. -/
def PDq {n : ℕ} (A : Matrix (Fin n) (Fin n) ℚ) : Prop :=
  ∀ x : Fin n → ℚ, x ≠ 0 → 0 < x ⬝ᵥ A.mulVec x

theorem dotProduct_conj {n k : ℕ} (B : Matrix (Fin k) (Fin n) ℚ)
    (C : Matrix (Fin k) (Fin k) ℚ) (x : Fin n → ℚ) :
    x ⬝ᵥ (Bᵀ * C * B).mulVec x = B.mulVec x ⬝ᵥ C.mulVec (B.mulVec x) := by
  rw [← Matrix.mulVec_mulVec, ← Matrix.mulVec_mulVec, Matrix.dotProduct_mulVec,
    Matrix.vecMul_transpose]

theorem PSDq.conj {n k : ℕ} {C : Matrix (Fin k) (Fin k) ℚ} (hC : PSDq C)
    (B : Matrix (Fin k) (Fin n) ℚ) : PSDq (Bᵀ * C * B) := fun x => by
  rw [dotProduct_conj]; exact hC _

theorem PSDq.add {n : ℕ} {A B : Matrix (Fin n) (Fin n) ℚ} (hA : PSDq A)
    (hB : PSDq B) : PSDq (A + B) := fun x => by
  rw [Matrix.add_mulVec, Matrix.dotProduct_add]
  exact add_nonneg (hA x) (hB x)

theorem PSDq_one {n : ℕ} : PSDq (1 : Matrix (Fin n) (Fin n) ℚ) := fun x => by
  rw [Matrix.one_mulVec]
  exact Finset.sum_nonneg fun i _ => mul_self_nonneg (x i)

theorem PSDq_zero {n : ℕ} : PSDq (0 : Matrix (Fin n) (Fin n) ℚ) := fun x => by
  rw [Matrix.zero_mulVec, Matrix.dotProduct_zero]

/-- The innovation covariance is PSD whenever the predicted covariance and the
measurement-noise covariance are. -/
theorem PSDq_residualCovariance {n k : ℕ} {H : Matrix (Fin k) (Fin n) ℚ}
    {R : Matrix (Fin k) (Fin k) ℚ} {predicted_Sigma : Matrix (Fin n) (Fin n) ℚ}
    (hS : PSDq predicted_Sigma) (hR : PSDq R) :
    PSDq (residualCovariance H R predicted_Sigma) := by
  have h : H * predicted_Sigma * Hᵀ = (Hᵀ)ᵀ * predicted_Sigma * Hᵀ := by
    rw [Matrix.transpose_transpose]
  unfold residualCovariance
  rw [h]
  exact (hS.conj Hᵀ).add hR

theorem PSDq_matInv {k : ℕ} {S : Matrix (Fin k) (Fin k) ℚ} (hS : PSDq S)
    (hdet : S.det ≠ 0) : PSDq (KalmanFilter.matInv S) := by
  intro x
  have hx : S.mulVec ((KalmanFilter.matInv S).mulVec x) = x := by
    rw [Matrix.mulVec_mulVec, mul_matInv_of_det_ne_zero S hdet, Matrix.one_mulVec]
  calc (0 : ℚ) ≤ (KalmanFilter.matInv S).mulVec x ⬝ᵥ
        S.mulVec ((KalmanFilter.matInv S).mulVec x) := hS _
    _ = (KalmanFilter.matInv S).mulVec x ⬝ᵥ x := by rw [hx]
    _ = x ⬝ᵥ (KalmanFilter.matInv S).mulVec x := Matrix.dotProduct_comm _ _

theorem PSDq.diag_nonneg {n : ℕ} {A : Matrix (Fin n) (Fin n) ℚ} (hA : PSDq A)
    (i : Fin n) : 0 ≤ A i i := by
  have h := hA (Pi.single i 1)
  rwa [Matrix.mulVec_single, Matrix.single_dotProduct, mul_one, one_mul] at h

theorem PSDq.trace_nonneg {n : ℕ} {A : Matrix (Fin n) (Fin n) ℚ} (hA : PSDq A) :
    0 ≤ A.trace :=
  Finset.sum_nonneg fun i _ => hA.diag_nonneg i

/-- The information-gain term `gain·H·Sigma` removed from the covariance by
`update`, rewritten as a congruence `(H·Sigma)ᵀ · S⁻¹ · (H·Sigma)`. -/
theorem gain_term_eq_conj {n k : ℕ} (H : Matrix (Fin k) (Fin n) ℚ)
    (R : Matrix (Fin k) (Fin k) ℚ) (predicted_Sigma : Matrix (Fin n) (Fin n) ℚ)
    (hSym : predicted_Sigmaᵀ = predicted_Sigma) :
    predicted_Sigma * Hᵀ * matInv (residualCovariance H R predicted_Sigma) *
        H * predicted_Sigma =
      (H * predicted_Sigma)ᵀ * matInv (residualCovariance H R predicted_Sigma) *
        (H * predicted_Sigma) := by
  rw [Matrix.transpose_mul, hSym, Matrix.mul_assoc
    (predicted_Sigma * Hᵀ * matInv (residualCovariance H R predicted_Sigma)) H
    predicted_Sigma]

/-- C8: for a well-conditioned `update` call (symmetric PSD predicted
covariance, PSD measurement noise, invertible innovation covariance), the
posterior covariance is below the predicted covariance in the Loewner order
(their difference is PSD), and in particular its trace does not exceed the
predicted covariance's trace. -/
theorem C8_posterior_trace_le {n k : ℕ} (H : Matrix (Fin k) (Fin n) ℚ)
    (R : Matrix (Fin k) (Fin k) ℚ) (z : Fin k → ℚ) (predicted_mu : Fin n → ℚ)
    (predicted_Sigma : Matrix (Fin n) (Fin n) ℚ)
    (hSym : predicted_Sigmaᵀ = predicted_Sigma) (hPSD : PSDq predicted_Sigma)
    (hR : PSDq R) (hdet : (residualCovariance H R predicted_Sigma).det ≠ 0) :
    PSDq (predicted_Sigma - (update H R z predicted_mu predicted_Sigma).2) ∧
    (update H R z predicted_mu predicted_Sigma).2.trace ≤ predicted_Sigma.trace := by
  have hSpsd : PSDq (residualCovariance H R predicted_Sigma) :=
    PSDq_residualCovariance hPSD hR
  have hinv : PSDq (matInv (residualCovariance H R predicted_Sigma)) :=
    PSDq_matInv hSpsd hdet
  have hdiff : predicted_Sigma - (update H R z predicted_mu predicted_Sigma).2 =
      (H * predicted_Sigma)ᵀ * matInv (residualCovariance H R predicted_Sigma) *
        (H * predicted_Sigma) := by
    rw [update_snd, sub_sub_cancel, gain_term_eq_conj H R predicted_Sigma hSym]
  have hpsd : PSDq (predicted_Sigma - (update H R z predicted_mu predicted_Sigma).2) := by
    rw [hdiff]; exact hinv.conj (H * predicted_Sigma)
  refine ⟨hpsd, ?_⟩
  have htr : 0 ≤ (predicted_Sigma - (update H R z predicted_mu predicted_Sigma).2).trace :=
    hpsd.trace_nonneg
  rw [Matrix.trace_sub] at htr
  linarith

/-- Witness for C8 at a concrete one-dimensional input: `H = R = Sigma = 1`,
an identity observation of a unit-covariance belief. -/
theorem C8_posterior_trace_le_witness :
    ((1 : Matrix (Fin 1) (Fin 1) ℚ)ᵀ = 1 ∧ PSDq (1 : Matrix (Fin 1) (Fin 1) ℚ) ∧
      (residualCovariance (1 : Matrix (Fin 1) (Fin 1) ℚ) 1 1).det ≠ 0) ∧
    (PSDq ((1 : Matrix (Fin 1) (Fin 1) ℚ) -
        (update (1 : Matrix (Fin 1) (Fin 1) ℚ) 1 (fun _ => 1) (fun _ => 0) 1).2) ∧
      (update (1 : Matrix (Fin 1) (Fin 1) ℚ) 1 (fun _ => 1) (fun _ => 0) 1).2.trace ≤
        (1 : Matrix (Fin 1) (Fin 1) ℚ).trace) := by
  have hdet : (residualCovariance (1 : Matrix (Fin 1) (Fin 1) ℚ) 1 1).det ≠ 0 := by
    simp [residualCovariance, Matrix.det_fin_one]
  exact ⟨⟨Matrix.transpose_one, PSDq_one, hdet⟩,
    C8_posterior_trace_le 1 1 (fun _ => 1) (fun _ => 0) 1 Matrix.transpose_one
      PSDq_one PSDq_one hdet⟩

theorem symm_entries {n : ℕ} {S : Matrix (Fin n) (Fin n) ℚ} (hSym : Sᵀ = S)
    (i j : Fin n) : S j i = S i j := by
  have h := congrFun (congrFun hSym i) j
  rwa [Matrix.transpose_apply] at h

theorem psd_symm_cross_eq_zero {n : ℕ} {S : Matrix (Fin n) (Fin n) ℚ}
    (hPSD : PSDq S) (hSym : Sᵀ = S) {x : Fin n → ℚ}
    (hx : x ⬝ᵥ S.mulVec x = 0) (y : Fin n → ℚ) : x ⬝ᵥ S.mulVec y = 0 := by
  have hsw : y ⬝ᵥ S.mulVec x = x ⬝ᵥ S.mulVec y := by
    have h1 : y ᵥ* S = S.mulVec y := by
      rw [← hSym, Matrix.vecMul_transpose, hSym]
    rw [Matrix.dotProduct_mulVec, Matrix.dotProduct_comm, h1]
  have key : ∀ t : ℚ, 0 ≤ (y ⬝ᵥ S.mulVec y) * (t * t) +
      (2 * (x ⬝ᵥ S.mulVec y)) * t + 0 := by
    intro t
    have h := hPSD (x + t • y)
    have hexp : (x + t • y) ⬝ᵥ S.mulVec (x + t • y) =
        x ⬝ᵥ S.mulVec x + t * (y ⬝ᵥ S.mulVec x) + t * (x ⬝ᵥ S.mulVec y) +
          t * t * (y ⬝ᵥ S.mulVec y) := by
      simp only [Matrix.mulVec_add, Matrix.mulVec_smul, Matrix.dotProduct_add,
        Matrix.add_dotProduct, Matrix.dotProduct_smul, Matrix.smul_dotProduct,
        smul_eq_mul]
      ring
    rw [hexp, hx, hsw] at h
    nlinarith [h]
  have hdis := discrim_le_zero key
  rw [discrim] at hdis
  have hsq : (x ⬝ᵥ S.mulVec y) ^ 2 = 0 := by
    nlinarith [sq_nonneg (x ⬝ᵥ S.mulVec y)]
  exact (pow_eq_zero_iff two_ne_zero).mp hsq

theorem psd_symm_mulVec_eq_zero {n : ℕ} {S : Matrix (Fin n) (Fin n) ℚ}
    (hPSD : PSDq S) (hSym : Sᵀ = S) {x : Fin n → ℚ}
    (hx : x ⬝ᵥ S.mulVec x = 0) : S.mulVec x = 0 := by
  funext i
  have h := psd_symm_cross_eq_zero hPSD hSym hx (Pi.single i 1)
  rw [Matrix.mulVec_single] at h
  have hcalc : S.mulVec x i = x ⬝ᵥ fun j => S j i * 1 := by
    simp only [Matrix.mulVec, Matrix.dotProduct, mul_one]
    exact Finset.sum_congr rfl fun j _ => by
      rw [symm_entries hSym i j, mul_comm]
  rw [hcalc, h]
  rfl

/-- A PSD symmetric matrix with nonzero determinant is positive definite. -/
theorem PDq_of_PSDq_det_ne_zero {k : ℕ} {S : Matrix (Fin k) (Fin k) ℚ}
    (hPSD : PSDq S) (hSym : Sᵀ = S) (hdet : S.det ≠ 0) : PDq S := by
  intro x hx
  rcases lt_or_eq_of_le (hPSD x) with h | h
  · exact h
  · exfalso
    have h0 : S.mulVec x = 0 := psd_symm_mulVec_eq_zero hPSD hSym h.symm
    apply hx
    have h1 := congrArg (fun v => (matInv S).mulVec v) h0
    simpa [Matrix.mulVec_mulVec, matInv_mul_of_det_ne_zero S hdet,
      Matrix.one_mulVec] using h1

theorem PDq.psd {n : ℕ} {A : Matrix (Fin n) (Fin n) ℚ} (hA : PDq A) : PSDq A := by
  intro x
  rcases eq_or_ne x 0 with rfl | hx
  · simp
  · exact (hA x hx).le

theorem PDq_matInv {k : ℕ} {S : Matrix (Fin k) (Fin k) ℚ} (hS : PDq S)
    (hdet : S.det ≠ 0) : PDq (KalmanFilter.matInv S) := by
  intro x hx
  have hy : S.mulVec ((KalmanFilter.matInv S).mulVec x) = x := by
    rw [Matrix.mulVec_mulVec, mul_matInv_of_det_ne_zero S hdet, Matrix.one_mulVec]
  have hyne : (KalmanFilter.matInv S).mulVec x ≠ 0 := by
    intro h0
    apply hx
    rw [← hy, h0, Matrix.mulVec_zero]
  calc (0 : ℚ) < (KalmanFilter.matInv S).mulVec x ⬝ᵥ
        S.mulVec ((KalmanFilter.matInv S).mulVec x) := hS _ hyne
    _ = (KalmanFilter.matInv S).mulVec x ⬝ᵥ x := by rw [hy]
    _ = x ⬝ᵥ (KalmanFilter.matInv S).mulVec x := Matrix.dotProduct_comm _ _

/-- The trace of a congruence `Bᵀ·C·B` is the sum of the quadratic form of `C`
over the columns of `B`. -/
theorem trace_conj_eq_sum {n k : ℕ} (B : Matrix (Fin k) (Fin n) ℚ)
    (C : Matrix (Fin k) (Fin k) ℚ) :
    (Bᵀ * C * B).trace = ∑ j, (fun i => B i j) ⬝ᵥ C.mulVec fun i => B i j := by
  unfold Matrix.trace
  refine Finset.sum_congr rfl fun j _ => ?_
  simp only [Matrix.diag_apply, Matrix.mul_apply, Matrix.transpose_apply,
    Matrix.dotProduct, Matrix.mulVec, Finset.sum_mul, Finset.mul_sum]
  rw [Finset.sum_comm]
  exact Finset.sum_congr rfl fun a _ => Finset.sum_congr rfl fun b _ => by ring

theorem trace_conj_pos {n k : ℕ} {C : Matrix (Fin k) (Fin k) ℚ} (hC : PDq C)
    {B : Matrix (Fin k) (Fin n) ℚ} (hB : B ≠ 0) : 0 < (Bᵀ * C * B).trace := by
  obtain ⟨i, j, hij⟩ : ∃ i j, B i j ≠ 0 := by
    by_contra hall
    push_neg at hall
    exact hB (by ext a b; simpa using hall a b)
  rw [trace_conj_eq_sum]
  refine Finset.sum_pos' (fun t _ => hC.psd _) ⟨j, Finset.mem_univ j, ?_⟩
  refine hC _ fun h0 => hij ?_
  simpa using congrFun h0 i

/-- C9: running `predict` and then `update` on a measurement exactly equal to
`H` applied to the predicted mean (zero residual) returns the predicted mean
unchanged; and, for well-conditioned inputs (symmetric PSD prior covariance,
process noise and measurement noise, invertible innovation covariance), if
the Kalman gain is not degenerate (nonzero) the trace of the covariance
strictly decreases across the update. -/
theorem C9_zero_residual_round_trip {n m k : ℕ} (A : Matrix (Fin n) (Fin n) ℚ)
    (B : Matrix (Fin n) (Fin m) ℚ) (Q : Matrix (Fin n) (Fin n) ℚ)
    (H : Matrix (Fin k) (Fin n) ℚ) (R : Matrix (Fin k) (Fin k) ℚ)
    (mu_t : Fin n → ℚ) (u_t : Fin m → ℚ) (Sigma_t : Matrix (Fin n) (Fin n) ℚ)
    (pm : Fin n → ℚ) (pS : Matrix (Fin n) (Fin n) ℚ)
    (hpred : predict A B Q mu_t u_t Sigma_t = (pm, pS))
    (hSym : Sigma_tᵀ = Sigma_t) (hQSym : Qᵀ = Q) (hRSym : Rᵀ = R)
    (hPSD : PSDq Sigma_t) (hQPSD : PSDq Q) (hRPSD : PSDq R)
    (hdet : (residualCovariance H R pS).det ≠ 0)
    (hK : pS * Hᵀ * matInv (residualCovariance H R pS) ≠ 0) :
    (update H R (H.mulVec pm) pm pS).1 = pm ∧
    (update H R (H.mulVec pm) pm pS).2.trace < pS.trace := by
  have hpS : pS = A * Sigma_t * Aᵀ + Q := by
    have := congrArg Prod.snd hpred
    simpa [predict] using this.symm
  have hpSSym : pSᵀ = pS := by
    rw [hpS, Matrix.transpose_add, hQSym, Matrix.transpose_mul,
      Matrix.transpose_mul, Matrix.transpose_transpose, hSym, Matrix.mul_assoc]
  have hpSPSD : PSDq pS := by
    rw [hpS]
    have h1 : A * Sigma_t * Aᵀ = (Aᵀ)ᵀ * Sigma_t * Aᵀ := by
      rw [Matrix.transpose_transpose]
    rw [h1]
    exact (hPSD.conj Aᵀ).add hQPSD
  constructor
  · rw [update_fst, sub_self, Matrix.mulVec_zero, add_zero]
  · have hSsym : (residualCovariance H R pS)ᵀ = residualCovariance H R pS := by
      unfold residualCovariance
      rw [Matrix.transpose_add, hRSym, Matrix.transpose_mul, Matrix.transpose_mul,
        Matrix.transpose_transpose, hpSSym, Matrix.mul_assoc]
    have hSpsd : PSDq (residualCovariance H R pS) :=
      PSDq_residualCovariance hpSPSD hRPSD
    have hSpd : PDq (residualCovariance H R pS) :=
      PDq_of_PSDq_det_ne_zero hSpsd hSsym hdet
    have hCinv : PDq (matInv (residualCovariance H R pS)) := PDq_matInv hSpd hdet
    have hBne : H * pS ≠ 0 := by
      intro h0
      apply hK
      have hBt : pS * Hᵀ = (H * pS)ᵀ := by rw [Matrix.transpose_mul, hpSSym]
      rw [hBt, h0, Matrix.transpose_zero, Matrix.zero_mul]
    have hpos : 0 < ((H * pS)ᵀ * matInv (residualCovariance H R pS) * (H * pS)).trace :=
      trace_conj_pos hCinv hBne
    rw [update_snd, Matrix.trace_sub, gain_term_eq_conj H R pS hpSSym]
    linarith

/-- The one-by-one identity matrix, used in concrete witnesses. -/
def oneM : Matrix (Fin 1) (Fin 1) ℚ := 1

/-- The zero vector of dimension one, used in concrete witnesses. -/
def zeroV : Fin 1 → ℚ := fun _ => 0

/-- Witness for C9 at a concrete one-dimensional input: all model matrices and
the prior covariance are `1`; the predicted covariance is `2`, the innovation
covariance is `3`, and the gain is the nonzero `2/3`. -/
theorem C9_zero_residual_round_trip_witness :
    ((residualCovariance oneM oneM (predict oneM oneM oneM zeroV zeroV oneM).2).det ≠ 0 ∧
      (predict oneM oneM oneM zeroV zeroV oneM).2 * oneMᵀ *
        matInv (residualCovariance oneM oneM
          (predict oneM oneM oneM zeroV zeroV oneM).2) ≠ 0) ∧
    ((update oneM oneM (oneM.mulVec (predict oneM oneM oneM zeroV zeroV oneM).1)
        (predict oneM oneM oneM zeroV zeroV oneM).1
        (predict oneM oneM oneM zeroV zeroV oneM).2).1 =
      (predict oneM oneM oneM zeroV zeroV oneM).1 ∧
    (update oneM oneM (oneM.mulVec (predict oneM oneM oneM zeroV zeroV oneM).1)
        (predict oneM oneM oneM zeroV zeroV oneM).1
        (predict oneM oneM oneM zeroV zeroV oneM).2).2.trace <
      (predict oneM oneM oneM zeroV zeroV oneM).2.trace) := by
  have hdet : (residualCovariance oneM oneM
      (predict oneM oneM oneM zeroV zeroV oneM).2).det ≠ 0 := by
    simp only [residualCovariance, predict, oneM, Matrix.det_fin_one, Matrix.add_apply,
      Matrix.mul_apply, Fin.sum_univ_one, Matrix.one_apply, Matrix.transpose_apply]
    norm_num
  have hK : (predict oneM oneM oneM zeroV zeroV oneM).2 * oneMᵀ *
      matInv (residualCovariance oneM oneM
        (predict oneM oneM oneM zeroV zeroV oneM).2) ≠ 0 := by
    intro h
    have h00 := congrFun (congrFun h 0) 0
    simp [matInv, predict, residualCovariance, oneM, Matrix.det_fin_one,
      Matrix.adjugate_fin_one, Matrix.mul_apply, Fin.sum_univ_one,
      Matrix.one_apply, Matrix.transpose_apply, Matrix.add_apply,
      Matrix.smul_apply, Matrix.zero_apply] at h00
    norm_num at h00
  have hone : oneMᵀ = oneM := Matrix.transpose_one
  have hpsd : PSDq oneM := PSDq_one
  exact ⟨⟨hdet, hK⟩,
    C9_zero_residual_round_trip oneM oneM oneM oneM oneM zeroV zeroV oneM _ _ rfl
      hone hone hone hpsd hpsd hpsd hdet hK⟩

end KalmanFilter

namespace ParticleFilter

/-- Embedding of the notebook's `Particle` class: a planar state
`np.array([x, y])` and a scalar weight.  The scalar type is a parameter: the
weight update uses real arithmetic (a Euclidean norm), while the resampling
loop only moves values around and is instantiated at `ℚ` so concrete runs
are decidable. -/
structure Particle (α : Type) where
  state : Fin 2 → α
  weight : α
deriving DecidableEq

instance {α : Type} [Zero α] : Inhabited (Particle α) := ⟨⟨fun _ => 0, 0⟩⟩

/-- Embedding of `Particle.predict(u_t)`:
`self.state = self.state + u_t + motion_model_noise`, with the per-particle
noise draw passed in explicitly; the weight is not touched. -/
def Particle.predict (p : Particle ℝ) (u_t motion_model_noise : Fin 2 → ℝ) :
    Particle ℝ :=
  { p with state := p.state + u_t + motion_model_noise }

/-- Euclidean norm of a planar vector, embedding `np.linalg.norm`. -/
noncomputable def norm2 (v : Fin 2 → ℝ) : ℝ := Real.sqrt (v 0 ^ 2 + v 1 ^ 2)

/-- Embedding of `Particle.update(z_t)`:
`self.weight = 1. / np.linalg.norm(self.state - z_t)`; the state is not
touched, and there is no special case for zero distance. -/
noncomputable def Particle.update (p : Particle ℝ) (z_t : Fin 2 → ℝ) :
    Particle ℝ :=
  { p with weight := 1 / norm2 (p.state - z_t) }

/-- C10: the particle `predict` step changes only the state and leaves the
weight unchanged, and the particle `update` step changes only the weight and
leaves the state unchanged. -/
theorem C10_predict_update_frame (p : Particle ℝ)
    (u_t motion_model_noise z_t : Fin 2 → ℝ) :
    (p.predict u_t motion_model_noise).weight = p.weight ∧
    (p.update z_t).state = p.state :=
  ⟨rfl, rfl⟩

/-- C5: the notebook's weight update divides by the distance with no special
case: for a particle whose state exactly equals the measurement `z_t` the
distance is `0` and the assigned weight is the division-by-zero value `1 / 0`
(float `inf` in numpy, propagated into resampling), not a finite
special-cased weight. -/
theorem C5_zero_distance_unguarded :
    norm2 ((⟨![1, 1], 1⟩ : Particle ℝ).state - ![1, 1]) = 0 ∧
    ((⟨![1, 1], 1⟩ : Particle ℝ).update ![1, 1]).weight = 1 / 0 := by
  have h : norm2 ((⟨![1, 1], 1⟩ : Particle ℝ).state - ![1, 1]) = 0 := by
    simp [norm2]
  refine ⟨h, ?_⟩
  show 1 / norm2 ((⟨![1, 1], 1⟩ : Particle ℝ).state - ![1, 1]) = 1 / 0
  rw [h]

/-- Embedding of the notebook's weight normalization
`normalized_weights = np.array(weights) / float(np.sum(weights))`: every
weight is divided by the total, with no guard on a zero (or non-finite)
total. -/
def normalizeWeights (ws : List ℚ) : List ℚ := ws.map fun w => w / ws.sum

/-- C4: the notebook normalizes weights with no degenerate-weights guard: on
an all-zero weight vector the division by the zero sum is performed anyway
(`0/0`, NaN in numpy, which then poisons `np.random.choice`); no
`DegenerateWeights` condition exists in the code.  On this failing input the
"normalized" weights do not sum to 1. -/
theorem C4_degenerate_weights_unguarded :
    ([0, 0, 0] : List ℚ).sum = 0 ∧
    normalizeWeights [0, 0, 0] = [0 / 0, 0 / 0, 0 / 0] ∧
    (normalizeWeights [0, 0, 0]).sum = 0 := by
  refine ⟨by simp, ?_, by simp [normalizeWeights]⟩
  simp [normalizeWeights]

/-- One pass of the notebook's kept-slot loop
`for j in range(int(num_particles * alpha)): particles[j] = particles[indexes[j]]`:
the list is read as it is being overwritten, exactly as in the notebook.
`resampleKeep idx j ps` is the list after the first `j` iterations. -/
def resampleKeep {α : Type} [Zero α] (idx : ℕ → ℕ) :
    ℕ → List (Particle α) → List (Particle α)
  | 0, ps => ps
  | j + 1, ps =>
    let q := resampleKeep idx j ps
    q.set j (q.getD (idx j) default)

/-- The notebook's injection loop: slot `K + j` is replaced by a freshly
sampled particle `Particle(x, y, 0.)` with weight zero; the fresh uniform
draws are passed in as `fresh`. -/
def resampleInject {α : Type} [Zero α] (K : ℕ) (fresh : ℕ → Fin 2 → α) :
    ℕ → List (Particle α) → List (Particle α)
  | 0, ps => ps
  | j + 1, ps => (resampleInject K fresh j ps).set (K + j) ⟨fresh j, 0⟩

/-- Embedding of the notebook's full resampling step:
`K = int(num_particles * alpha)` slots are overwritten in place from the
drawn `indexes`, then the remaining `M − K` slots are replaced by fresh
particles with weight `0.`. -/
def resample {α : Type} [Zero α] (alpha : ℚ) (idx : ℕ → ℕ)
    (fresh : ℕ → Fin 2 → α) (ps : List (Particle α)) : List (Particle α) :=
  let M := ps.length
  let K := ⌊alpha * M⌋₊
  resampleInject K fresh (M - K) (resampleKeep idx K ps)

theorem getD_set {α : Type} (l : List α) (i j : ℕ) (a d : α) :
    (l.set i a).getD j d = if i = j ∧ i < l.length then a else l.getD j d := by
  simp only [List.getD_eq_getElem?_getD, List.getElem?_set]
  rcases eq_or_ne i j with rfl | hne
  · by_cases h2 : i < l.length
    · simp [h2]
    · have hnone : l[i]? = none := List.getElem?_eq_none (le_of_not_lt h2)
      simp [h2, hnone]
  · simp [hne]

theorem resampleKeep_length {α : Type} [Zero α] (idx : ℕ → ℕ) (j : ℕ)
    (ps : List (Particle α)) : (resampleKeep idx j ps).length = ps.length := by
  induction j with
  | zero => rfl
  | succ j ih => simp [resampleKeep, List.length_set, ih]

theorem resampleInject_length {α : Type} [Zero α] (K : ℕ) (fresh : ℕ → Fin 2 → α)
    (t : ℕ) (ps : List (Particle α)) :
    (resampleInject K fresh t ps).length = ps.length := by
  induction t with
  | zero => rfl
  | succ t ih => simp [resampleInject, List.length_set, ih]

/-- Every slot the kept-slot loop has written holds a value of the OLD
generation (possibly reached through already-overwritten slots). -/
theorem resampleKeep_from_old {α : Type} [Zero α] (idx : ℕ → ℕ)
    (ps : List (Particle α)) (hidx : ∀ t, idx t < ps.length) :
    ∀ j pos, pos < ps.length →
      ∃ i, i < ps.length ∧
        (resampleKeep idx j ps).getD pos default = ps.getD i default := by
  intro j
  induction j with
  | zero => exact fun pos hpos => ⟨pos, hpos, rfl⟩
  | succ j ih =>
    intro pos hpos
    simp only [resampleKeep]
    rw [getD_set]
    by_cases hc : j = pos ∧ j < (resampleKeep idx j ps).length
    · rw [if_pos hc]
      exact ih (idx j) (hidx j)
    · rw [if_neg hc]
      exact ih pos hpos

theorem resampleInject_getD_lt {α : Type} [Zero α] (K : ℕ)
    (fresh : ℕ → Fin 2 → α) (t : ℕ) (ps : List (Particle α)) (pos : ℕ)
    (hpos : pos < K) :
    (resampleInject K fresh t ps).getD pos default = ps.getD pos default := by
  induction t with
  | zero => rfl
  | succ t ih =>
    simp only [resampleInject]
    rw [getD_set, if_neg]
    · exact ih
    · rintro ⟨h1, h2⟩
      omega

theorem resampleInject_getD_fresh {α : Type} [Zero α] (K : ℕ)
    (fresh : ℕ → Fin 2 → α) (ps : List (Particle α)) :
    ∀ t pos, K ≤ pos → pos < K + t → pos < ps.length →
      (resampleInject K fresh t ps).getD pos default = ⟨fresh (pos - K), 0⟩ := by
  intro t
  induction t with
  | zero => intro pos h1 h2 h3; omega
  | succ t ih =>
    intro pos h1 h2 h3
    simp only [resampleInject]
    rw [getD_set]
    rcases eq_or_ne pos (K + t) with rfl | hne
    · rw [if_pos ⟨rfl, by rw [resampleInject_length]; exact h3⟩,
        Nat.add_sub_cancel_left]
    · rw [if_neg fun hc => hne hc.1.symm]
      exact ih pos h1 (by omega) h3

/-- C6: the notebook's resampling step preserves the particle count exactly:
the new generation has the same length `M`; each of the first
`K = int(alpha * M)` slots is filled with a particle of the old generation
(selected through the drawn indices), and each of the remaining `M − K` slots
is filled with a freshly sampled particle whose weight is reset to zero. -/
theorem C6_resample_counts (alpha : ℚ) (idx : ℕ → ℕ) (fresh : ℕ → Fin 2 → ℚ)
    (ps : List (Particle ℚ)) (h0 : 0 ≤ alpha) (h1 : alpha ≤ 1)
    (hidx : ∀ t, idx t < ps.length) :
    (resample alpha idx fresh ps).length = ps.length ∧
    (∀ j, j < ⌊alpha * (ps.length : ℚ)⌋₊ →
      ∃ i, i < ps.length ∧
        (resample alpha idx fresh ps).getD j default = ps.getD i default) ∧
    (∀ j, ⌊alpha * (ps.length : ℚ)⌋₊ ≤ j → j < ps.length →
      (resample alpha idx fresh ps).getD j default =
        ⟨fresh (j - ⌊alpha * (ps.length : ℚ)⌋₊), 0⟩) := by
  have hKM : ⌊alpha * (ps.length : ℚ)⌋₊ ≤ ps.length := by
    have hle : alpha * (ps.length : ℚ) ≤ (ps.length : ℚ) := by
      have := mul_le_mul_of_nonneg_right h1 (Nat.cast_nonneg (α := ℚ) ps.length)
      linarith
    calc ⌊alpha * (ps.length : ℚ)⌋₊ ≤ ⌊(ps.length : ℚ)⌋₊ := Nat.floor_mono hle
      _ = ps.length := Nat.floor_natCast _
  refine ⟨?_, ?_, ?_⟩
  · unfold resample
    rw [resampleInject_length, resampleKeep_length]
  · intro j hj
    unfold resample
    rw [resampleInject_getD_lt _ _ _ _ _ hj]
    obtain ⟨i, hi, hv⟩ := resampleKeep_from_old idx ps hidx
      ⌊alpha * (ps.length : ℚ)⌋₊ j (lt_of_lt_of_le hj hKM)
    exact ⟨i, hi, hv⟩
  · intro j hj1 hj2
    unfold resample
    rw [resampleInject_getD_fresh _ _ _ _ j hj1 (by omega)
      (by rw [resampleKeep_length]; exact hj2)]

/-- Concrete particle list for witnesses and counterexamples: three particles
with pairwise distinct states and weight `1`. -/
def ps3 : List (Particle ℚ) := [⟨![0, 0], 1⟩, ⟨![1, 1], 1⟩, ⟨![2, 2], 1⟩]

/-- Witness for C6 at a concrete input: three particles, `alpha = 9/10`
(so `K = ⌊2.7⌋ = 2`), all drawn indices `0`. -/
theorem C6_resample_counts_witness :
    (0 ≤ (9 / 10 : ℚ) ∧ (9 / 10 : ℚ) ≤ 1 ∧
      ∀ t : ℕ, (fun _ : ℕ => 0) t < ps3.length) ∧
    ((resample (9 / 10) (fun _ => 0) (fun _ => ![5, 5]) ps3).length = ps3.length ∧
    (∀ j, j < ⌊(9 / 10 : ℚ) * (ps3.length : ℚ)⌋₊ →
      ∃ i, i < ps3.length ∧
        (resample (9 / 10) (fun _ => 0) (fun _ => ![5, 5]) ps3).getD j default =
          ps3.getD i default) ∧
    (∀ j, ⌊(9 / 10 : ℚ) * (ps3.length : ℚ)⌋₊ ≤ j → j < ps3.length →
      (resample (9 / 10) (fun _ => 0) (fun _ => ![5, 5]) ps3).getD j default =
        ⟨![5, 5], 0⟩)) := by
  have h0 : (0 : ℚ) ≤ 9 / 10 := by norm_num
  have h1 : (9 / 10 : ℚ) ≤ 1 := by norm_num
  have hidx : ∀ t : ℕ, (fun _ : ℕ => 0) t < ps3.length := by
    intro t
    show 0 < ps3.length
    decide
  obtain ⟨hlen, hkept, hfresh⟩ :=
    C6_resample_counts (9 / 10) (fun _ => 0) (fun _ => ![5, 5]) ps3 h0 h1 hidx
  exact ⟨⟨h0, h1, hidx⟩, hlen, hkept, fun j hj1 hj2 => hfresh j hj1 hj2⟩

/-- The drawn-index sequence of the C7 counterexample: the first draw picks
old particle `1`, the second draw picks old particle `0`. -/
def idx7 : ℕ → ℕ := fun j => if j = 0 then 1 else 0

/-- C7: the notebook's in-place resampling reads slots that the same pass has
already overwritten.  With three particles, `alpha = 0.9` (`K = 2`) and drawn
indices `[1, 0, ...]`, iteration `0` overwrites slot `0` with old particle
`1`; iteration `1` then reads slot `0` — already overwritten — so the new
slot `1` holds old particle `1` rather than a verbatim copy of the OLD
generation's particle at drawn index `0`.  This refutes the claim on the
code. -/
theorem C7_inplace_aliasing :
    (resample (9 / 10) idx7 (fun _ => ![7, 7]) ps3).getD 1 default =
      ⟨![1, 1], 1⟩ ∧
    ps3.getD (idx7 1) default = ⟨![0, 0], 1⟩ ∧
    (⟨![1, 1], 1⟩ : Particle ℚ) ≠ ⟨![0, 0], 1⟩ := by
  have h3 : ps3.length = 3 := rfl
  have hfl : ⌊(9 / 10 : ℚ) * (ps3.length : ℚ)⌋₊ = 2 := by
    rw [h3]
    rw [Nat.floor_eq_iff (by positivity)]
    norm_num
  refine ⟨?_, by decide, by decide⟩
  show (resampleInject ⌊(9 / 10 : ℚ) * (ps3.length : ℚ)⌋₊ (fun _ => ![7, 7])
      (ps3.length - ⌊(9 / 10 : ℚ) * (ps3.length : ℚ)⌋₊)
      (resampleKeep idx7 ⌊(9 / 10 : ℚ) * (ps3.length : ℚ)⌋₊ ps3)).getD 1 default =
    ⟨![1, 1], 1⟩
  rw [hfl, h3]
  decide

end ParticleFilter
